import Mathlib

/-!
Verification of the MCP342x ADC driver (`MCP342x/__init__.py`).

The Python class `MCP342x` is shallowly embedded below.  Machine integers
are modelled as `Nat` (the configuration register is a 7-bit value, an
invariant written `config < 128` where it matters); Python floats are
modelled as `ℚ`; a Python `raise` is modelled as an error value of type
`MError`, paired with the object state at the time of the raise (all
`raise` statements in the source fire before any mutation, so the state
returned with an error is the pre-call state).  Bus I/O is modelled
explicitly: reads become function parameters, writes become returned
bytes.
-/

namespace MCP342xSpec

/-- `MCP342x._gain_mask` -/
def gain_mask : Nat := 0b00000011

/-- `MCP342x._resolution_mask` -/
def resolution_mask : Nat := 0b00001100

/-- `MCP342x._continuous_mode_mask` -/
def continuous_mode_mask : Nat := 0b00010000

/-- `MCP342x._channel_mask` -/
def channel_mask : Nat := 0b01100000

/-- `MCP342x._not_ready_mask` -/
def not_ready_mask : Nat := 0b10000000

/-- `MCP342x._gain_to_config` (a Python dict, in insertion order). -/
def gain_to_config : List (Nat × Nat) := [(1, 0b00), (2, 0b01), (4, 0b10), (8, 0b11)]

/-- `MCP342x._resolution_to_config` -/
def resolution_to_config : List (Nat × Nat) :=
  [(12, 0b0000), (14, 0b0100), (16, 0b1000), (18, 0b1100)]

/-- `MCP342x._channel_to_config` -/
def channel_to_config : List (Nat × Nat) :=
  [(0, 0b0000000), (1, 0b0100000), (2, 0b1000000), (3, 0b1100000)]

/-- `MCP342x._resolution_to_lsb`, with the float literals `1e-3`, `250e-6`,
`62.5e-6`, `15.625e-6` written as the rationals they denote. -/
def resolution_to_lsb : List (Nat × ℚ) :=
  [(12, 1/1000), (14, 250/1000000), (16, 625/10000000), (18, 15625/1000000000)]

/-- Error kinds for the `raise Exception(...)` statements in the source,
tagged following the message text: `'Illegal gain/resolution/channel'`
becomes `invalidParameter`, `'... not supported by <device>'` becomes
`unsupportedByModel`, `'Unknown device'` becomes `unknownDevice`, and
`'Config does not match'` becomes `configMismatch`. -/
inductive MError
  | invalidParameter
  | unsupportedByModel
  | unknownDevice
  | configMismatch
deriving DecidableEq, Repr

/-- The mutable state of one `MCP342x` object: bus handle, address, model
name, the 7-bit configuration register image and the calibration pair. -/
structure MCP342x where
  bus : Nat
  address : Nat
  device : String
  config : Nat
  scale_factor : ℚ
  offset : ℚ
deriving DecidableEq, Repr

/-- The tuple of recognised model names in `MCP342x.__init__`. -/
def known_devices : List String :=
  ["MCP3422", "MCP3423", "MCP3424", "MCP3426", "MCP3427", "MCP3428"]

/-- Python `~m & 0x7f` for a mask `m < 128`: complement restricted to the
low seven bits. -/
def not7 (m : Nat) : Nat := 127 ^^^ m

/-- `MCP342x.config_to_gain`: reverse lookup
`[g for g, c in _gain_to_config.items() if c == config & _gain_mask][0]`.
The scan can never come up empty (`config & 0b11` is one of the four
codes), so the `headD` default is never used. -/
def config_to_gain (config : Nat) : Nat :=
  (((gain_to_config.filter (fun gc => gc.2 == config &&& gain_mask)).map
    (fun gc => gc.1)).headD 0)

/-- `MCP342x.config_to_resolution` -/
def config_to_resolution (config : Nat) : Nat :=
  (((resolution_to_config.filter (fun rc => rc.2 == config &&& resolution_mask)).map
    (fun rc => rc.1)).headD 0)

/-- `MCP342x.config_to_lsb`: `_resolution_to_lsb[config_to_resolution(config)]`
(the dict access cannot miss, since `config_to_resolution` only returns keys
of the table). -/
def config_to_lsb (config : Nat) : ℚ :=
  (resolution_to_lsb.lookup (config_to_resolution config)).getD 0

/-- `MCP342x.get_bus` -/
def get_bus (d : MCP342x) : Nat := d.bus

/-- `MCP342x.get_address` -/
def get_address (d : MCP342x) : Nat := d.address

/-- `MCP342x.get_gain` -/
def get_gain (d : MCP342x) : Nat := config_to_gain d.config

/-- `MCP342x.get_resolution` -/
def get_resolution (d : MCP342x) : Nat := config_to_resolution d.config

/-- `MCP342x.get_continuous_mode`: `bool(self.config & _continuous_mode_mask)` -/
def get_continuous_mode (d : MCP342x) : Bool :=
  d.config &&& continuous_mode_mask != 0

/-- `MCP342x.get_channel`: reverse lookup over `_channel_to_config`. -/
def get_channel (d : MCP342x) : Nat :=
  (((channel_to_config.filter (fun cc => cc.2 == d.config &&& channel_mask)).map
    (fun cc => cc.1)).headD 0)

/-- `MCP342x.get_config` -/
def get_config (d : MCP342x) : Nat := d.config

/-- `MCP342x.set_gain`: raises (`invalidParameter`) when the gain is not a
key of `_gain_to_config`, otherwise clears the gain field and ors in the
code. -/
def set_gain (d : MCP342x) (gain : Nat) : MCP342x × Option MError :=
  match gain_to_config.lookup gain with
  | none => (d, some MError.invalidParameter)
  | some code =>
    ({ d with config := (d.config &&& not7 gain_mask) ||| code }, none)

/-- `MCP342x.set_resolution`: raises on an unknown resolution, then raises
(`unsupportedByModel`) for 18-bit sampling on devices other than
MCP3422/3423/3424, otherwise updates the resolution field. -/
def set_resolution (d : MCP342x) (resolution : Nat) : MCP342x × Option MError :=
  match resolution_to_config.lookup resolution with
  | none => (d, some MError.invalidParameter)
  | some code =>
    if resolution = 18 ∧ d.device ∉ ["MCP3422", "MCP3423", "MCP3424"] then
      (d, some MError.unsupportedByModel)
    else
      ({ d with config := (d.config &&& not7 resolution_mask) ||| code }, none)

/-- `MCP342x.set_continuous_mode`: sets or clears the continuous-mode bit;
never raises. -/
def set_continuous_mode (d : MCP342x) (continuous_mode : Bool) : MCP342x :=
  if continuous_mode then { d with config := d.config ||| continuous_mode_mask }
  else { d with config := d.config &&& not7 continuous_mode_mask }

/-- `MCP342x.set_channel`: raises on an unknown channel, then raises
(`unsupportedByModel`) for channels 2/3 on devices other than
MCP3424/MCP3428, otherwise updates the channel field. -/
def set_channel (d : MCP342x) (channel : Nat) : MCP342x × Option MError :=
  match channel_to_config.lookup channel with
  | none => (d, some MError.invalidParameter)
  | some code =>
    if (channel = 2 ∨ channel = 3) ∧ d.device ∉ ["MCP3424", "MCP3428"] then
      (d, some MError.unsupportedByModel)
    else
      ({ d with config := (d.config &&& not7 channel_mask) ||| code }, none)

/-- `MCP342x.set_config`: `self.config = config & 0x7f`. -/
def set_config (d : MCP342x) (config : Nat) : MCP342x :=
  { d with config := config &&& 127 }

/-- Sequencing of the Python statements in `__init__`: stop at the first
raise, keeping the state reached so far. -/
def initStep (s : MCP342x × Option MError) (f : MCP342x → MCP342x × Option MError) :
    MCP342x × Option MError :=
  match s with
  | (d, none) => f d
  | e => e

/-- `MCP342x.__init__`: validates the model name, zeroes the register, then
applies `set_channel`, `set_gain`, `set_resolution`, `set_continuous_mode`
in that order. -/
def init (bus address : Nat) (device : String) (channel gain resolution : Nat)
    (continuous_mode : Bool) (scale_factor offset : ℚ) : MCP342x × Option MError :=
  let d0 : MCP342x :=
    { bus := bus, address := address, device := device, config := 0,
      scale_factor := scale_factor, offset := offset }
  if device ∉ known_devices then (d0, some MError.unknownDevice)
  else
    initStep (initStep (initStep (set_channel d0 channel)
        (fun d => set_gain d gain))
        (fun d => set_resolution d resolution))
        (fun d => (set_continuous_mode d continuous_mode, none))

/-- `MCP342x.convert`: computes, in a local copy `c` of the register, the
byte actually written to the bus (continuous-mode bit forced off, not-ready
bit forced on) and writes it.  Returned: the written byte together with the
object state afterwards (which the source never mutates). -/
def convert (d : MCP342x) : Nat × MCP342x :=
  (((d.config &&& not7 continuous_mode_mask) ||| not_ready_mask), d)

/-- `bytes_to_read = 4 if res == 18 else 3` in `MCP342x.raw_read`. -/
def bytes_to_read (res : Nat) : Nat := if res = 18 then 4 else 3

/-- The accumulation loop of `raw_read`:
`for i in range(bytes_to_read - 1): count <<= 8; count |= d[i]`,
over the first `bytes_to_read - 1` bytes of the block `d`. -/
def accumulate_count (data : List Nat) : Nat :=
  data.foldl (fun acc b => (acc <<< 8) ||| b) 0

/-- The sign handling of `raw_read` applied to the accumulated count.
Python `~count & count_mask` on the already-masked `count` (so
`count ≤ count_mask`, and `count_mask` is all-ones) flips exactly the bits
inside the mask, i.e. is `count ^^^ count_mask`. -/
def decode_count (res : Nat) (data : List Nat) : Int :=
  let count0 := accumulate_count (data.take (bytes_to_read res - 1))
  let sign_bit_mask := 1 <<< (res - 1)
  let count_mask := sign_bit_mask - 1
  let sign_bit := count0 &&& sign_bit_mask
  let count := count0 &&& count_mask
  if sign_bit ≠ 0 then -(Int.ofNat (count ^^^ count_mask)) - 1
  else Int.ofNat count

/-- Sample decoder as the spec states it (§4.2): accumulate the data bytes
most-significant first into an unsigned integer, compute
`sign_bit_mask = 1 << (resolution-1)` and `data_mask = sign_bit_mask - 1`;
if the sign bit is set, the result is `-((~count) & data_mask) - 1`, else
`count & data_mask`.  Python `(~count) & data_mask` for an arbitrary
nonnegative `count` and an all-ones `data_mask` keeps, flipped, exactly
the bits of `count` inside the mask: `(count &&& data_mask) ^^^ data_mask`. -/
def spec_decode (res : Nat) (data : List Nat) : Int :=
  let count := data.foldl (fun acc b => acc * 256 + b) 0
  let sign_bit_mask := 2 ^ (res - 1)
  let data_mask := sign_bit_mask - 1
  if count &&& sign_bit_mask ≠ 0 then
    -(Int.ofNat ((count &&& data_mask) ^^^ data_mask)) - 1
  else Int.ofNat (count &&& data_mask)

/-- The `while True` poll loop of `MCP342x.raw_read`, with the bus modelled
as the stream `responses` of blocks returned by successive
`read_i2c_block_data` calls (`responses k` is the block returned by the
`k`-th read, `d[-1]` its last byte) and an explicit fuel argument: `none`
means the loop has not returned within `fuel` iterations.  The source loop
has no such bound; the fuel only makes the unbounded search observable. -/
def raw_read_aux (res : Nat) (responses : Nat → List Nat) :
    Nat → Nat → Option (Int × Nat)
  | 0, _ => none
  | fuel + 1, k =>
    let d := responses k
    let config_used := d.getLastD 0
    if config_used &&& not_ready_mask = 0 then
      some (decode_count res d, config_used)
    else raw_read_aux res responses fuel (k + 1)

/-- `MCP342x.raw_read` on a bus whose reads return `responses 0`,
`responses 1`, ... in turn. -/
def raw_read (d : MCP342x) (responses : Nat → List Nat) (fuel : Nat) :
    Option (Int × Nat) :=
  raw_read_aux (get_resolution d) responses fuel 0

/-- `MCP342x.read` after `raw_read` has returned `(count, config_used)`,
with the `scale_factor` and `offset` arguments left at their `None`
defaults (so the stored calibration pair is used): raises `configMismatch`
when the configuration byte read back differs from the stored register,
returns the raw count when `raw`, and otherwise the calibrated value
`count * lsb * scale_factor / gain + offset`. -/
def read_result (d : MCP342x) (count : Int) (config_used : Nat) (raw : Bool) :
    Except MError ℚ :=
  if config_used ≠ d.config then Except.error MError.configMismatch
  else if raw then Except.ok (count : ℚ)
  else
    let lsb := config_to_lsb config_used
    Except.ok ((count : ℚ) * lsb * d.scale_factor / (config_to_gain config_used : ℚ)
      + d.offset)

/-- The lsb-size table exactly as the spec writes it:
`{12: 1e-3, 14: 250e-6, 16: 62.5e-6, 18: 15.625e-6}` volts per count. -/
def lsb_size (resolution : Nat) : ℚ :=
  if resolution = 12 then 1/1000
  else if resolution = 14 then 250/1000000
  else if resolution = 16 then 625/10000000
  else if resolution = 18 then 15625/1000000000
  else 0

/-! ### The batch scheduler (`MCP342x.convert_and_read_many`)

Requests are the `MCP342x` objects themselves.  The grouping state is the
source's `batches[bus][n]` / `position[bus][n]` pair, carried here as an
association list from bus to an ordered list of batches, each batch an
ordered list of (original request index, request) pairs; `addresses[bus][n]`
is recovered from a batch by `addrsOf`.  Bus I/O (`configure`,
`general_call_convert`, the dummy configuration of unused devices) does not
touch `results` and is dropped from the model; `a.read(raw=raw)` is
abstracted as `readVal a` for a parameter `readVal`. -/

/-- One bus's list of batches paired with original request positions. -/
abbrev Batches := List (List (Nat × MCP342x))

/-- The grouping state: dict from bus to its batches, in insertion order. -/
abbrev Grouping := List (Nat × Batches)

/-- `addresses[bus][n]` recovered from a batch. -/
def addrsOf (b : List (Nat × MCP342x)) : List Nat :=
  b.map (fun pr => pr.2.address)

/-- `batches[bus][n]` with the source's `bn < len(batches[bus])` guard:
out-of-range indices give the empty batch. -/
def batchAt (bs : Batches) (n : Nat) : List (Nat × MCP342x) :=
  (bs[n]?).getD []

/-- The inner placement loop for one request on one bus: scan the existing
batches in order; append the request to the first batch whose address list
does not contain its address; if every batch contains the address, start a
new batch at the end. -/
def insertReq (pn : Nat) (a : MCP342x) : Batches → Batches
  | [] => [[(pn, a)]]
  | b :: bs =>
    if a.address ∈ addrsOf b then b :: insertReq pn a bs
    else (b ++ [(pn, a)]) :: bs

/-- Placement of one request: find (or create, at the end, as Python dict
insertion does) the entry for its bus, and place it there. -/
def insertBus (pn : Nat) (a : MCP342x) : Grouping → Grouping
  | [] => [(a.bus, [[(pn, a)]])]
  | (bus, bs) :: rest =>
    if bus = a.bus then (bus, insertReq pn a bs) :: rest
    else (bus, bs) :: insertBus pn a rest

/-- The grouping loop of `convert_and_read_many` (`pn` is the running
request index). -/
def groupAux : Nat → List MCP342x → Grouping → Grouping
  | _, [], g => g
  | pn, a :: adcs, g => groupAux (pn + 1) adcs (insertBus pn a g)

/-- The whole grouping pass over the request list. -/
def groupReqs (adcs : List MCP342x) : Grouping := groupAux 0 adcs []

/-- `num_batches`: the highest batch count across all buses. -/
def numBatches (g : Grouping) : Nat :=
  (g.map (fun e => e.2.length)).foldr max 0

/-- The read-back of one batch:
`results[pn] = a.read(raw=raw)` for each `(pn, a)` in the batch. -/
def readBatch (readVal : MCP342x → Int) (results : List Int)
    (b : List (Nat × MCP342x)) : List Int :=
  b.foldl (fun res pr => res.set pr.1 (readVal pr.2)) results

/-- Round `bn`: for every bus that has a `bn`-th batch, read it back. -/
def readRound (readVal : MCP342x → Int) (g : Grouping) (bn : Nat)
    (results : List Int) : List Int :=
  g.foldl (fun res e => readBatch readVal res (batchAt e.2 bn)) results

/-- `MCP342x.convert_and_read_many` with `samples=None`, `aggregate=None`:
group the requests, initialise `results = [0] * len(adcs)`, then execute
the rounds in order, writing each request's value at its original index. -/
def convert_and_read_many (readVal : MCP342x → Int) (adcs : List MCP342x) :
    List Int :=
  let g := groupReqs adcs
  (List.range (numBatches g)).foldl (fun res bn => readRound readVal g bn res)
    (List.replicate adcs.length 0)

/-- Requests for bus `β` sharing address `a`. -/
def cntAddr (adcs : List MCP342x) (β a : Nat) : Nat :=
  (adcs.filter (fun q => q.bus == β && q.address == a)).length

/-- The maximum number of requests sharing a single device address on bus
`β`. -/
def maxMult (adcs : List MCP342x) (β : Nat) : Nat :=
  (((adcs.filter (fun q => q.bus == β)).map
    (fun q => cntAddr adcs β q.address)).foldr max 0)

/-! ### Helper lemmas -/

/-- A gain outside the table has no entry in `_gain_to_config`. -/
theorem lookup_gain_none {g : Nat} (h : g ∉ [1, 2, 4, 8]) :
    gain_to_config.lookup g = none := by
  simp only [List.mem_cons, List.not_mem_nil, or_false, not_or] at h
  obtain ⟨h1, h2, h4, h8⟩ := h
  simp [gain_to_config, List.lookup, beq_eq_false_iff_ne.mpr h1,
    beq_eq_false_iff_ne.mpr h2, beq_eq_false_iff_ne.mpr h4,
    beq_eq_false_iff_ne.mpr h8]

/-- A resolution outside the table has no entry in `_resolution_to_config`. -/
theorem lookup_resolution_none {r : Nat} (h : r ∉ [12, 14, 16, 18]) :
    resolution_to_config.lookup r = none := by
  simp only [List.mem_cons, List.not_mem_nil, or_false, not_or] at h
  obtain ⟨h1, h2, h4, h8⟩ := h
  simp [resolution_to_config, List.lookup, beq_eq_false_iff_ne.mpr h1,
    beq_eq_false_iff_ne.mpr h2, beq_eq_false_iff_ne.mpr h4,
    beq_eq_false_iff_ne.mpr h8]

/-- A channel outside the table has no entry in `_channel_to_config`. -/
theorem lookup_channel_none {ch : Nat} (h : ch ∉ [0, 1, 2, 3]) :
    channel_to_config.lookup ch = none := by
  simp only [List.mem_cons, List.not_mem_nil, or_false, not_or] at h
  obtain ⟨h1, h2, h4, h8⟩ := h
  simp [channel_to_config, List.lookup, beq_eq_false_iff_ne.mpr h1,
    beq_eq_false_iff_ne.mpr h2, beq_eq_false_iff_ne.mpr h4,
    beq_eq_false_iff_ne.mpr h8]

/-- The decoded resolution is always one of the four table keys. -/
theorem config_to_resolution_mem : ∀ c < 128,
    config_to_resolution c ∈ [12, 14, 16, 18] := by
  decide

/-- On 7-bit registers, `config_to_lsb` agrees with the spec's lsb table
applied to the decoded resolution. -/
theorem config_to_lsb_eq (c : Nat) (hc : c < 128) :
    config_to_lsb c = lsb_size (config_to_resolution c) := by
  have h := config_to_resolution_mem c hc
  simp only [List.mem_cons, List.not_mem_nil, or_false] at h
  unfold config_to_lsb
  rcases h with h | h | h | h <;> rw [h] <;> rfl

/-- Bit facts about the byte written by `convert`. -/
theorem convert_bits : ∀ c < 128,
    (((c &&& not7 continuous_mode_mask) ||| not_ready_mask) &&& continuous_mode_mask = 0) ∧
    (((c &&& not7 continuous_mode_mask) ||| not_ready_mask) &&& not_ready_mask = not_ready_mask) := by
  decide

/-- A handle constructed for model MCP3422 (default channel/gain/resolution). -/
def h3422 : MCP342x := (init 1 104 "MCP3422" 0 1 12 false 1 0).1

/-- An MCP3424 handle at its default register (resolution 12, gain 1),
scale factor 1 and offset 0. -/
def c4dev : MCP342x :=
  { bus := 1, address := 104, device := "MCP3424", config := 0,
    scale_factor := 1, offset := 0 }

/-- An MCP3424 handle with continuous mode set (config `0b0011100`). -/
def c10dev : MCP342x :=
  { bus := 1, address := 104, device := "MCP3424", config := 28,
    scale_factor := 1, offset := 0 }

/-! ### Claims -/

/-- Claim C4: for every handle whose read-back configuration matches its
stored configuration, `read()` with `raw=False` returns
`count * lsb_size(resolution) * scale_factor / gain + offset`, where
`lsb_size` is the fixed table `{12: 1e-3, 14: 250e-6, 16: 62.5e-6,
18: 15.625e-6}` (floats modelled as the exact rationals they denote). -/
theorem claim_c4 (d : MCP342x) (hc : d.config < 128) (count : Int) :
    read_result d count d.config false =
      Except.ok ((count : ℚ) * lsb_size (get_resolution d) * d.scale_factor
        / (get_gain d : ℚ) + d.offset) := by
  have h := config_to_lsb_eq d.config hc
  simp [read_result, get_resolution, get_gain, h]

/-- Claim C4 witness: resolution 12, gain 1, scale_factor 1, offset 0 and
count 100 give the value 0.1. -/
theorem claim_c4_witness :
    c4dev.config < 128 ∧
    read_result c4dev 100 c4dev.config false = Except.ok (1/10) := by
  refine ⟨by decide, ?_⟩
  rw [claim_c4 c4dev (by decide) 100]
  have hres : get_resolution c4dev = 12 := rfl
  have hgain : get_gain c4dev = 1 := rfl
  have hsc : c4dev.scale_factor = 1 := rfl
  have hoff : c4dev.offset = 0 := rfl
  rw [hres, hgain, hsc, hoff]
  norm_num [lsb_size]

/-- Claim C6: for every gain not in {1,2,4,8}, resolution not in
{12,14,16,18} and channel not in {0,1,2,3}, the corresponding setter
signals `invalidParameter` and leaves the stored configuration register
(indeed the whole handle) exactly as it was. -/
theorem claim_c6 (d : MCP342x) :
    (∀ g : Nat, g ∉ [1, 2, 4, 8] →
      set_gain d g = (d, some MError.invalidParameter)) ∧
    (∀ r : Nat, r ∉ [12, 14, 16, 18] →
      set_resolution d r = (d, some MError.invalidParameter)) ∧
    (∀ ch : Nat, ch ∉ [0, 1, 2, 3] →
      set_channel d ch = (d, some MError.invalidParameter)) := by
  refine ⟨fun g hg => ?_, fun r hr => ?_, fun ch hch => ?_⟩
  · simp [set_gain, lookup_gain_none hg]
  · simp [set_resolution, lookup_resolution_none hr]
  · simp [set_channel, lookup_channel_none hch]

/-- Claim C6 witness: gain 3, resolution 13 and channel 4 are rejected with
the handle unchanged. -/
theorem claim_c6_witness :
    set_gain h3422 3 = (h3422, some MError.invalidParameter) ∧
    set_resolution h3422 13 = (h3422, some MError.invalidParameter) ∧
    set_channel h3422 4 = (h3422, some MError.invalidParameter) :=
  ⟨(claim_c6 h3422).1 3 (by decide), (claim_c6 h3422).2.1 13 (by decide),
    (claim_c6 h3422).2.2 4 (by decide)⟩

/-- Claim C8: `read` signals `configMismatch` exactly when the
configuration byte returned by `raw_read` differs from the stored
configuration register, and in that case never returns a value, raw or
calibrated. -/
theorem claim_c8 (d : MCP342x) (count : Int) (config_used : Nat) (raw : Bool) :
    (read_result d count config_used raw = Except.error MError.configMismatch ↔
      config_used ≠ d.config) ∧
    (config_used ≠ d.config →
      ∀ q : ℚ, read_result d count config_used raw ≠ Except.ok q) := by
  by_cases hc : config_used = d.config
  · subst hc
    cases raw <;> simp [read_result]
  · simp [read_result, hc]

/-- Claim C8 witness: a read-back byte of 5 against a stored register of 0
is surfaced as `configMismatch` and not as a value. -/
theorem claim_c8_witness :
    (read_result h3422 100 5 false = Except.error MError.configMismatch ↔
      (5 : Nat) ≠ h3422.config) ∧
    read_result h3422 100 5 false ≠ Except.ok (1/10) :=
  ⟨(claim_c8 h3422 100 5 false).1,
    (claim_c8 h3422 100 5 false).2 (by decide) (1/10)⟩

/-- Claim C7 counterexample: the claim asserts that model MCP3422 supports
only channel 0, but on a handle constructed for MCP3422 the call
`set_channel(1)` succeeds and the channel reads back as 1. -/
theorem claim_c7_cex :
    (set_channel h3422 1).2 = none ∧ get_channel (set_channel h3422 1).1 = 1 := by
  decide

/-- Claim C7 (amended: MCP3422 supports channels 0 and 1, not only
channel 0): channels 2 and 3 are accepted exactly on MCP3424/MCP3428 and
resolution 18 exactly on MCP3422/MCP3423/MCP3424, with
`unsupportedByModel` signalled (and the handle left unchanged) otherwise;
in particular `set_channel(2)` on an MCP3422 handle signals
`unsupportedByModel`. -/
theorem claim_c7 (d : MCP342x) (hdev : d.device ∈ known_devices) :
    (∀ ch, (ch = 2 ∨ ch = 3) →
      (((set_channel d ch).2 = none ↔ d.device ∈ ["MCP3424", "MCP3428"]) ∧
       (d.device ∉ ["MCP3424", "MCP3428"] →
         set_channel d ch = (d, some MError.unsupportedByModel)))) ∧
    (((set_resolution d 18).2 = none ↔
        d.device ∈ ["MCP3422", "MCP3423", "MCP3424"]) ∧
     (d.device ∉ ["MCP3422", "MCP3423", "MCP3424"] →
       set_resolution d 18 = (d, some MError.unsupportedByModel))) ∧
    (d.device = "MCP3422" →
      set_channel d 2 = (d, some MError.unsupportedByModel)) := by
  simp only [known_devices, List.mem_cons, List.not_mem_nil, or_false] at hdev
  constructor
  · intro ch hch
    rcases hch with rfl | rfl <;>
      rcases hdev with hd | hd | hd | hd | hd | hd <;>
        simp [set_channel, channel_to_config, List.lookup, hd]
  · constructor
    · rcases hdev with hd | hd | hd | hd | hd | hd <;>
        simp [set_resolution, resolution_to_config, List.lookup, hd]
    · intro hd
      simp [set_channel, channel_to_config, List.lookup, hd]

/-- Claim C7 witness: on the constructed MCP3422 handle, `set_channel(2)`
signals `unsupportedByModel` with the handle unchanged. -/
theorem claim_c7_witness :
    set_channel h3422 2 = (h3422, some MError.unsupportedByModel) :=
  (claim_c7 h3422 (by decide)).2.2 (by decide)

/-- Claim C10: `convert()` leaves the stored configuration register
unchanged — the written byte (stored configuration with the
continuous-mode bit cleared and the not-ready bit set) is computed in a
local copy — so `get_config()` afterwards returns the same value,
including the continuous-mode flag. -/
theorem claim_c10 (d : MCP342x) (hc : d.config < 128) :
    (convert d).2 = d ∧
    get_config (convert d).2 = get_config d ∧
    get_continuous_mode (convert d).2 = get_continuous_mode d ∧
    (convert d).1 = (d.config &&& not7 continuous_mode_mask) ||| not_ready_mask ∧
    (convert d).1 &&& continuous_mode_mask = 0 ∧
    (convert d).1 &&& not_ready_mask = not_ready_mask :=
  ⟨rfl, rfl, rfl, rfl, (convert_bits d.config hc).1, (convert_bits d.config hc).2⟩

/-- Claim C10 witness: on a handle with continuous mode set, `convert`
writes a one-shot byte (continuous bit clear) and the stored register is
untouched. -/
theorem claim_c10_witness :
    c10dev.config < 128 ∧
    (convert c10dev).2.config = 28 ∧
    (convert c10dev).1 &&& continuous_mode_mask = 0 :=
  ⟨by decide, by decide, (claim_c10 c10dev (by decide)).2.2.2.2.1⟩

/-- Shifting a byte in: `(acc << 8) | b` equals `acc * 256 + b` for a bus
byte `b < 256`. -/
theorem shl8_lor_eq (a b : Nat) (hb : b < 256) : (a <<< 8) ||| b = a * 256 + b := by
  have h256 : (256 : Nat) = 2 ^ 8 := by norm_num
  rw [Nat.shiftLeft_eq, h256, Nat.mul_comm a (2 ^ 8)]
  apply Nat.eq_of_testBit_eq
  intro i
  rw [Nat.testBit_lor, Nat.testBit_mul_pow_two_add a (h256 ▸ hb) i,
    Nat.testBit_mul_pow_two]
  by_cases hi : i < 8
  · have hng : ¬ (i ≥ 8) := by omega
    simp [hi, hng]
  · have hge : i ≥ 8 := by omega
    have hbz : b.testBit i = false :=
      Nat.testBit_lt_two_pow (lt_of_lt_of_le (h256 ▸ hb)
        (Nat.pow_le_pow_right (by norm_num) hge))
    simp [hi, hge, hbz]

/-- The two accumulation loops agree on byte input: shift-and-or (source)
versus multiply-and-add (spec). -/
theorem accumulate_eq (data : List Nat) (hb : ∀ b ∈ data, b < 256) :
    accumulate_count data = data.foldl (fun acc b => acc * 256 + b) 0 := by
  unfold accumulate_count
  generalize 0 = acc
  induction data generalizing acc with
  | nil => rfl
  | cons b rest ih =>
    simp only [List.foldl_cons]
    rw [shl8_lor_eq acc b (hb b (List.mem_cons_self b rest))]
    exact ih (fun x hx => hb x (List.mem_cons_of_mem b hx)) _

/-- Claim C3: for every resolution in the table and every payload of the
right shape (`bytes_to_read - 1` data bytes, each `< 256`, followed by a
status byte with the not-ready bit clear), `raw_read` returns the signed
count described by the spec: accumulate the data bytes most-significant
first, set `sign_bit_mask = 1 << (res-1)` and `data_mask = sign_bit_mask -
1`, and recover two's complement as `-((~count) & data_mask) - 1` when the
sign bit is set, else `count & data_mask`. -/
theorem claim_c3 (res : Nat) (_hres : res ∈ [12, 14, 16, 18]) (data : List Nat)
    (hlen : data.length = bytes_to_read res - 1) (hb : ∀ b ∈ data, b < 256)
    (status : Nat) (hs : status &&& not_ready_mask = 0)
    (responses : Nat → List Nat) (h0 : responses 0 = data ++ [status])
    (fuel : Nat) :
    raw_read_aux res responses (fuel + 1) 0 =
      some (spec_decode res data, status) ∧
    decode_count res (data ++ [status]) = spec_decode res data := by
  have htake : (data ++ [status]).take (bytes_to_read res - 1) = data := by
    rw [← hlen]
    exact List.take_left data [status]
  have hdec : decode_count res (data ++ [status]) = spec_decode res data := by
    simp only [decode_count, spec_decode, htake, Nat.one_shiftLeft,
      accumulate_eq data hb]
  refine ⟨?_, hdec⟩
  show (if (responses 0).getLastD 0 &&& not_ready_mask = 0 then
      some (decode_count res (responses 0), (responses 0).getLastD 0)
    else raw_read_aux res responses fuel 1) = _
  rw [h0]
  have hlast : (data ++ [status]).getLastD 0 = status := by
    simp [List.getLastD_eq_getLast?, List.getLast?_concat]
  rw [hlast]
  simp [hs, hdec]

/-- Claim C3 witness: at resolution 18 the data bytes `[0x00, 0x00, 0x01]`
decode to count 1 and the maximum negative 18-bit two's-complement pattern
`[0x02, 0x00, 0x00]` decodes to -131072. -/
theorem claim_c3_witness :
    raw_read_aux 18 (fun _ => [0, 0, 1, 0]) 1 0 = some (1, 0) ∧
    spec_decode 18 [0, 0, 1] = 1 ∧
    decode_count 18 [2, 0, 0, 0] = -131072 ∧
    spec_decode 18 [2, 0, 0] = -131072 :=
  ⟨((claim_c3 18 (by decide) [0, 0, 1] (by decide) (by decide) 0 (by decide)
      (fun _ => [0, 0, 1, 0]) rfl 0).1).trans (by decide),
    by decide, by decide, by decide⟩

/-- One unfolding step of the poll loop. -/
theorem raw_read_aux_succ (res : Nat) (responses : Nat → List Nat)
    (fuel k : Nat) :
    raw_read_aux res responses (fuel + 1) k =
      if (responses k).getLastD 0 &&& not_ready_mask = 0 then
        some (decode_count res (responses k), (responses k).getLastD 0)
      else raw_read_aux res responses fuel (k + 1) := rfl

/-- If the poll loop returns within its fuel, some response had the
not-ready bit clear. -/
theorem raw_read_aux_some_ready (res : Nat) (responses : Nat → List Nat) :
    ∀ fuel s, raw_read_aux res responses fuel s ≠ none →
      ∃ k, (responses k).getLastD 0 &&& not_ready_mask = 0 := by
  intro fuel
  induction fuel with
  | zero => intro s h; exact absurd rfl h
  | succ n ih =>
    intro s h
    by_cases hr : (responses s).getLastD 0 &&& not_ready_mask = 0
    · exact ⟨s, hr⟩
    · rw [raw_read_aux_succ, if_neg hr] at h
      exact ih (s + 1) h

/-- If response `s + k` is ready, fuel `k + 1` suffices from start `s`. -/
theorem raw_read_aux_ready_some (res : Nat) (responses : Nat → List Nat) :
    ∀ k s, (responses (s + k)).getLastD 0 &&& not_ready_mask = 0 →
      raw_read_aux res responses (k + 1) s ≠ none := by
  intro k
  induction k with
  | zero =>
    intro s hr
    rw [raw_read_aux_succ, if_pos (by simpa using hr)]
    simp
  | succ n ih =>
    intro s hr
    rw [raw_read_aux_succ]
    by_cases h0 : (responses s).getLastD 0 &&& not_ready_mask = 0
    · rw [if_pos h0]; simp
    · rw [if_neg h0]
      apply ih (s + 1)
      have harith : s + 1 + n = s + (n + 1) := by omega
      rw [harith]
      exact hr

/-- Claim C9: the busy-poll loop of `raw_read` has no iteration bound —
it returns (for some fuel) exactly when some bus read eventually yields a
last byte with the not-ready bit clear, and on a bus whose every read-back
has the not-ready bit set it never returns, whatever the fuel. -/
theorem claim_c9 (res : Nat) (responses : Nat → List Nat) :
    ((∃ fuel, raw_read_aux res responses fuel 0 ≠ none) ↔
      (∃ k, (responses k).getLastD 0 &&& not_ready_mask = 0)) ∧
    ((∀ k, (responses k).getLastD 0 &&& not_ready_mask ≠ 0) →
      ∀ fuel s, raw_read_aux res responses fuel s = none) := by
  constructor
  · constructor
    · rintro ⟨fuel, h⟩
      exact raw_read_aux_some_ready res responses fuel 0 h
    · rintro ⟨k, hk⟩
      exact ⟨k + 1, raw_read_aux_ready_some res responses k 0
        (by simpa using hk)⟩
  · intro hall fuel
    induction fuel with
    | zero => intro s; rfl
    | succ n ih =>
      intro s
      rw [raw_read_aux_succ, if_neg (hall s)]
      exact ih (s + 1)

/-- Claim C9 witness: a device that always reports not-ready (status byte
`0x90`) never lets `raw_read` return, at any fuel tried. -/
theorem claim_c9_witness :
    raw_read_aux 12 (fun _ => [0, 0, 144]) 1000 0 = none ∧
    raw_read_aux 18 (fun _ => [0, 0, 0, 255]) 7 3 = none :=
  ⟨(claim_c9 12 (fun _ => [0, 0, 144])).2 (fun _ => by decide) 1000 0,
    (claim_c9 18 (fun _ => [0, 0, 0, 255])).2 (fun _ => by decide) 7 3⟩

/-! ### Setting the four register fields in an arbitrary order (claim C2) -/

/-- The four configuration fields. -/
inductive CField
  | gain
  | resolution
  | channel
  | mode
deriving DecidableEq, Fintype

/-- A choice of value for each of the four fields. -/
structure CVals where
  g : Nat
  r : Nat
  ch : Nat
  m : Bool

/-- Apply the setter for one field. -/
def applyField (v : CVals) (d : MCP342x) : CField → MCP342x × Option MError
  | CField.gain => set_gain d v.g
  | CField.resolution => set_resolution d v.r
  | CField.channel => set_channel d v.ch
  | CField.mode => (set_continuous_mode d v.m, none)

/-- Apply setters in the given order, stopping at the first error. -/
def applyFields (v : CVals) : MCP342x → List CField → MCP342x × Option MError
  | d, [] => (d, none)
  | d, f :: fs =>
    match applyField v d f with
    | (d2, none) => applyFields v d2 fs
    | e => e

/-- The register mask of each field. -/
def fieldMask : CField → Nat
  | CField.gain => gain_mask
  | CField.resolution => resolution_mask
  | CField.channel => channel_mask
  | CField.mode => continuous_mode_mask

/-- The possible field codes. -/
def fieldCodes : CField → List Nat
  | CField.gain => [0, 1, 2, 3]
  | CField.resolution => [0, 4, 8, 12]
  | CField.channel => [0, 32, 64, 96]
  | CField.mode => [0, 16]

/-- Write a field: keep the bits in `keep`, or in `code`. -/
def wf (keep code c : Nat) : Nat := (c &&& keep) ||| code

/-- The code a valid value encodes to. -/
def codeOf (v : CVals) : CField → Nat
  | CField.gain => (gain_to_config.lookup v.g).getD 0
  | CField.resolution => (resolution_to_config.lookup v.r).getD 0
  | CField.channel => (channel_to_config.lookup v.ch).getD 0
  | CField.mode => if v.m then continuous_mode_mask else 0

/-- The register transformation a successful setter performs. -/
def stepConf (v : CVals) (c : Nat) (f : CField) : Nat :=
  wf (not7 (fieldMask f)) (codeOf v f) c

/-- Validity of a value choice: each value is in its table and the device
model permits it. -/
def ValidVals (v : CVals) (dev : String) : Prop :=
  v.g ∈ [1, 2, 4, 8] ∧ v.r ∈ [12, 14, 16, 18] ∧ v.ch ∈ [0, 1, 2, 3] ∧
  (v.r = 18 → dev ∈ ["MCP3422", "MCP3423", "MCP3424"]) ∧
  ((v.ch = 2 ∨ v.ch = 3) → dev ∈ ["MCP3424", "MCP3428"])

/-- Writing one field keeps the register 7-bit, sets exactly that field's
bits to the code, and leaves every other field's bits unchanged. -/
theorem step_facts : ∀ f : CField, ∀ code ∈ fieldCodes f, ∀ c < 128,
    wf (not7 (fieldMask f)) code c < 128 ∧
    wf (not7 (fieldMask f)) code c &&& fieldMask f = code ∧
    ∀ f2 : CField, f2 ≠ f →
      wf (not7 (fieldMask f)) code c &&& fieldMask f2 = c &&& fieldMask f2 := by
  decide

/-- Setting the continuous-mode bit with `|` is, on 7-bit registers, the
same as clearing then setting it. -/
theorem mode_or_eq : ∀ c < 128,
    c ||| continuous_mode_mask =
      (c &&& not7 continuous_mode_mask) ||| continuous_mode_mask := by
  decide

/-- Valid values encode to codes of the corresponding field. -/
theorem codeOf_mem (v : CVals) (dev : String) (hv : ValidVals v dev) :
    ∀ f, codeOf v f ∈ fieldCodes f := by
  intro f
  cases f
  · obtain ⟨hg, -, -, -, -⟩ := hv
    simp only [List.mem_cons, List.not_mem_nil, or_false] at hg
    rcases hg with h | h | h | h <;>
      simp [codeOf, h, gain_to_config, List.lookup, fieldCodes]
  · obtain ⟨-, hr, -, -, -⟩ := hv
    simp only [List.mem_cons, List.not_mem_nil, or_false] at hr
    rcases hr with h | h | h | h <;>
      simp [codeOf, h, resolution_to_config, List.lookup, fieldCodes]
  · obtain ⟨-, -, hch, -, -⟩ := hv
    simp only [List.mem_cons, List.not_mem_nil, or_false] at hch
    rcases hch with h | h | h | h <;>
      simp [codeOf, h, channel_to_config, List.lookup, fieldCodes]
  · cases hm : v.m <;> simp [codeOf, hm, fieldCodes, continuous_mode_mask]

/-- On a 7-bit register with valid values, every setter succeeds and
performs exactly the `stepConf` register transformation. -/
theorem applyField_eq (v : CVals) (d : MCP342x) (hc : d.config < 128)
    (hv : ValidVals v d.device) (f : CField) :
    applyField v d f = ({ d with config := stepConf v d.config f }, none) := by
  obtain ⟨hg, hr, hch, h18, h23⟩ := hv
  cases f
  · simp only [List.mem_cons, List.not_mem_nil, or_false] at hg
    rcases hg with h | h | h | h <;>
      simp [applyField, set_gain, h, gain_to_config, List.lookup, stepConf,
        codeOf, fieldMask, wf]
  · simp only [List.mem_cons, List.not_mem_nil, or_false] at hr
    rcases hr with h | h | h | h <;>
      simp [applyField, set_resolution, h, resolution_to_config, List.lookup,
        stepConf, codeOf, fieldMask, wf, h18]
  · simp only [List.mem_cons, List.not_mem_nil, or_false] at hch
    rcases hch with h | h | h | h <;>
      simp [applyField, set_channel, h, channel_to_config, List.lookup,
        stepConf, codeOf, fieldMask, wf, h23]
  · cases hm : v.m
    · simp [applyField, set_continuous_mode, hm, stepConf, codeOf, fieldMask, wf]
    · simp only [applyField, set_continuous_mode, hm, if_pos, stepConf, codeOf,
        fieldMask, wf]
      rw [mode_or_eq d.config hc]

/-- Running a list of setters with valid values always succeeds, performs
the fold of the register transformations, and keeps the register 7-bit. -/
theorem applyFields_eq (v : CVals) :
    ∀ (l : List CField) (d : MCP342x), d.config < 128 → ValidVals v d.device →
      applyFields v d l = ({ d with config := l.foldl (stepConf v) d.config }, none) ∧
      l.foldl (stepConf v) d.config < 128 := by
  intro l
  induction l with
  | nil => intro d hc hv; exact ⟨rfl, hc⟩
  | cons f fs ih =>
    intro d hc hv
    have hstep := applyField_eq v d hc hv f
    have hlt : stepConf v d.config f < 128 :=
      (step_facts f (codeOf v f) (codeOf_mem v d.device hv f) d.config hc).1
    have ih2 := ih { d with config := stepConf v d.config f } hlt hv
    constructor
    · show (match applyField v d f with
        | (d2, none) => applyFields v d2 fs
        | e => e) = _
      rw [hstep]
      exact ih2.1
    · exact ih2.2

/-- Fields not named in the list keep their register bits under the fold. -/
theorem foldl_frame (v : CVals) (dev : String) (hv : ValidVals v dev)
    (f : CField) :
    ∀ (l : List CField), f ∉ l → ∀ c, c < 128 →
      (l.foldl (stepConf v) c) &&& fieldMask f = c &&& fieldMask f ∧
      l.foldl (stepConf v) c < 128 := by
  intro l
  induction l with
  | nil => intro _ c hc; exact ⟨rfl, hc⟩
  | cons g gs ih =>
    intro hnot c hc
    simp only [List.mem_cons, not_or] at hnot
    have hfacts := step_facts g (codeOf v g) (codeOf_mem v dev hv g) c hc
    have ih2 := ih hnot.2 (stepConf v c g) hfacts.1
    refine ⟨ih2.1.trans ?_, ih2.2⟩
    exact hfacts.2.2 f hnot.1

/-- The register stays 7-bit under the fold. -/
theorem foldl_lt (v : CVals) (dev : String) (hv : ValidVals v dev) :
    ∀ (l : List CField) (c : Nat), c < 128 → l.foldl (stepConf v) c < 128 := by
  intro l
  induction l with
  | nil => intro c hc; exact hc
  | cons g gs ih =>
    intro c hc
    exact ih _ (step_facts g (codeOf v g) (codeOf_mem v dev hv g) c hc).1

/-- After a fold whose list writes field `f` and never touches it again,
field `f` of the register holds the code of the chosen value. -/
theorem foldl_sets (v : CVals) (dev : String) (hv : ValidVals v dev)
    (f : CField) (l1 l2 : List CField) (hnot : f ∉ l2) (c : Nat) (hc : c < 128) :
    ((l1 ++ f :: l2).foldl (stepConf v) c) &&& fieldMask f = codeOf v f := by
  rw [List.foldl_append]
  have hc1 : l1.foldl (stepConf v) c < 128 := foldl_lt v dev hv l1 c hc
  have hfacts := step_facts f (codeOf v f) (codeOf_mem v dev hv f)
    (l1.foldl (stepConf v) c) hc1
  have hframe := foldl_frame v dev hv f l2 hnot
    (stepConf v (l1.foldl (stepConf v) c) f) hfacts.1
  show (l2.foldl (stepConf v) (stepConf v (l1.foldl (stepConf v) c) f)) &&&
      fieldMask f = codeOf v f
  rw [hframe.1]
  exact hfacts.2.1

/-- Reading back the gain field. -/
theorem gain_getter (c g : Nat) (hg : g ∈ [1, 2, 4, 8])
    (h : c &&& gain_mask = (gain_to_config.lookup g).getD 0) :
    config_to_gain c = g := by
  simp only [List.mem_cons, List.not_mem_nil, or_false] at hg
  rcases hg with rfl | rfl | rfl | rfl <;>
    · simp [gain_to_config, List.lookup] at h
      simp [config_to_gain, h, gain_to_config]

/-- Reading back the resolution field. -/
theorem resolution_getter (c r : Nat) (hr : r ∈ [12, 14, 16, 18])
    (h : c &&& resolution_mask = (resolution_to_config.lookup r).getD 0) :
    config_to_resolution c = r := by
  simp only [List.mem_cons, List.not_mem_nil, or_false] at hr
  rcases hr with rfl | rfl | rfl | rfl <;>
    · simp [resolution_to_config, List.lookup] at h
      simp [config_to_resolution, h, resolution_to_config]

/-- Reading back the channel field. -/
theorem channel_getter (c ch : Nat) (hch : ch ∈ [0, 1, 2, 3])
    (h : c &&& channel_mask = (channel_to_config.lookup ch).getD 0) :
    (((channel_to_config.filter (fun cc => cc.2 == c &&& channel_mask)).map
      (fun cc => cc.1)).headD 0) = ch := by
  simp only [List.mem_cons, List.not_mem_nil, or_false] at hch
  rcases hch with rfl | rfl | rfl | rfl <;>
    · simp [channel_to_config, List.lookup] at h
      simp [h, channel_to_config]

/-- Reading back the continuous-mode flag. -/
theorem mode_getter (c : Nat) (m : Bool)
    (h : c &&& continuous_mode_mask = (if m then continuous_mode_mask else 0)) :
    (c &&& continuous_mode_mask != 0) = m := by
  cases m <;> simp_all [continuous_mode_mask]

/-- Claim C2: on any handle (7-bit register) with valid field values the
device model permits, each setter round-trips with its getter — both for a
single setter call and for all four setters applied in any order, each
field reading back exactly the value that was set. -/
theorem claim_c2 (d : MCP342x) (hc : d.config < 128) (v : CVals)
    (hv : ValidVals v d.device) :
    ((set_gain d v.g).2 = none ∧ get_gain (set_gain d v.g).1 = v.g) ∧
    ((set_resolution d v.r).2 = none ∧
      get_resolution (set_resolution d v.r).1 = v.r) ∧
    ((set_channel d v.ch).2 = none ∧
      get_channel (set_channel d v.ch).1 = v.ch) ∧
    (get_continuous_mode (set_continuous_mode d v.m) = v.m) ∧
    (∀ l : List CField,
      l.Perm [CField.gain, CField.resolution, CField.channel, CField.mode] →
      (applyFields v d l).2 = none ∧
      get_gain (applyFields v d l).1 = v.g ∧
      get_resolution (applyFields v d l).1 = v.r ∧
      get_channel (applyFields v d l).1 = v.ch ∧
      get_continuous_mode (applyFields v d l).1 = v.m) := by
  have hgain : set_gain d v.g =
      ({ d with config := stepConf v d.config CField.gain }, none) :=
    applyField_eq v d hc hv CField.gain
  have hres : set_resolution d v.r =
      ({ d with config := stepConf v d.config CField.resolution }, none) :=
    applyField_eq v d hc hv CField.resolution
  have hchan : set_channel d v.ch =
      ({ d with config := stepConf v d.config CField.channel }, none) :=
    applyField_eq v d hc hv CField.channel
  have hmode : (set_continuous_mode d v.m, (none : Option MError)) =
      ({ d with config := stepConf v d.config CField.mode }, none) :=
    applyField_eq v d hc hv CField.mode
  have hcodes := codeOf_mem v d.device hv
  refine ⟨⟨?_, ?_⟩, ⟨?_, ?_⟩, ⟨?_, ?_⟩, ?_, ?_⟩
  · rw [hgain]
  · rw [hgain]
    exact gain_getter _ v.g hv.1
      (step_facts CField.gain (codeOf v CField.gain) (hcodes CField.gain)
        d.config hc).2.1
  · rw [hres]
  · rw [hres]
    exact resolution_getter _ v.r hv.2.1
      (step_facts CField.resolution (codeOf v CField.resolution)
        (hcodes CField.resolution) d.config hc).2.1
  · rw [hchan]
  · rw [hchan]
    exact channel_getter _ v.ch hv.2.2.1
      (step_facts CField.channel (codeOf v CField.channel)
        (hcodes CField.channel) d.config hc).2.1
  · have h1 : set_continuous_mode d v.m =
        { d with config := stepConf v d.config CField.mode } :=
      congrArg Prod.fst hmode
    rw [h1]
    exact mode_getter _ v.m
      (step_facts CField.mode (codeOf v CField.mode) (hcodes CField.mode)
        d.config hc).2.1
  · intro l hperm
    have hall := applyFields_eq v l d hc hv
    have hnd : l.Nodup := hperm.nodup_iff.mpr (by decide)
    have hfield : ∀ f : CField, f ∈ l →
        (l.foldl (stepConf v) d.config) &&& fieldMask f = codeOf v f := by
      intro f hmemf
      obtain ⟨s, t, hl⟩ := List.append_of_mem hmemf
      have hft : f ∉ t := by
        have h2 : (f :: t).Nodup := List.Nodup.of_append_right (hl ▸ hnd)
        exact (List.nodup_cons.mp h2).1
      rw [hl]
      exact foldl_sets v d.device hv f s t hft d.config hc
    have hmem : ∀ f : CField, f ∈ l := by
      intro f
      apply hperm.mem_iff.mpr
      cases f <;> decide
    refine ⟨by rw [hall.1], ?_, ?_, ?_, ?_⟩
    · rw [hall.1]
      exact gain_getter _ v.g hv.1 (hfield CField.gain (hmem CField.gain))
    · rw [hall.1]
      exact resolution_getter _ v.r hv.2.1
        (hfield CField.resolution (hmem CField.resolution))
    · rw [hall.1]
      exact channel_getter _ v.ch hv.2.2.1
        (hfield CField.channel (hmem CField.channel))
    · rw [hall.1]
      exact mode_getter _ v.m (hfield CField.mode (hmem CField.mode))

/-- Claim C2 witness: on a fresh MCP3424 handle, gain 8, resolution 18,
channel 3 and continuous mode set in reverse order all read back as set. -/
theorem claim_c2_witness :
    (set_gain c4dev 8).2 = none ∧ get_gain (set_gain c4dev 8).1 = 8 ∧
    (applyFields ⟨8, 18, 3, true⟩ c4dev
      [CField.mode, CField.channel, CField.resolution, CField.gain]).2 = none ∧
    get_gain (applyFields ⟨8, 18, 3, true⟩ c4dev
      [CField.mode, CField.channel, CField.resolution, CField.gain]).1 = 8 ∧
    get_resolution (applyFields ⟨8, 18, 3, true⟩ c4dev
      [CField.mode, CField.channel, CField.resolution, CField.gain]).1 = 18 ∧
    get_channel (applyFields ⟨8, 18, 3, true⟩ c4dev
      [CField.mode, CField.channel, CField.resolution, CField.gain]).1 = 3 ∧
    get_continuous_mode (applyFields ⟨8, 18, 3, true⟩ c4dev
      [CField.mode, CField.channel, CField.resolution, CField.gain]).1 = true := by
  have h := claim_c2 c4dev (by decide) ⟨8, 18, 3, true⟩
    ⟨by decide, by decide, by decide, fun _ => by decide, fun _ => by decide⟩
  have h2 := h.2.2.2.2
    [CField.mode, CField.channel, CField.resolution, CField.gain] (by decide)
  exact ⟨h.1.1, h.1.2, h2.1, h2.2.1, h2.2.2.1, h2.2.2.2.1, h2.2.2.2.2⟩

/-! ### Scheduler invariants (claims C1 and C5) -/

theorem batchAt_nil (n : Nat) : batchAt [] n = [] := by
  simp [batchAt]

theorem batchAt_cons_zero (b : List (Nat × MCP342x)) (bs : Batches) :
    batchAt (b :: bs) 0 = b := by simp [batchAt]

theorem batchAt_cons_succ (b : List (Nat × MCP342x)) (bs : Batches) (n : Nat) :
    batchAt (b :: bs) (n + 1) = batchAt bs n := by simp [batchAt]

theorem addrsOf_append (b1 b2 : List (Nat × MCP342x)) :
    addrsOf (b1 ++ b2) = addrsOf b1 ++ addrsOf b2 := by
  simp [addrsOf]

/-- `insertReq` keeps every batch's address list duplicate-free. -/
theorem insertReq_nodup (pn : Nat) (a : MCP342x) :
    ∀ bs : Batches, (∀ b ∈ bs, (addrsOf b).Nodup) →
      ∀ b ∈ insertReq pn a bs, (addrsOf b).Nodup := by
  intro bs
  induction bs with
  | nil =>
    intro _ b hb
    simp only [insertReq, List.mem_cons, List.not_mem_nil, or_false] at hb
    subst hb
    simp [addrsOf]
  | cons b0 bs ih =>
    intro hall b hb
    by_cases hmem : a.address ∈ addrsOf b0
    · rw [insertReq, if_pos hmem] at hb
      rcases List.mem_cons.mp hb with rfl | hb2
      · exact hall b (List.mem_cons_self b bs)
      · exact ih (fun x hx => hall x (List.mem_cons_of_mem b0 hx)) b hb2
    · rw [insertReq, if_neg hmem] at hb
      rcases List.mem_cons.mp hb with rfl | hb2
      · rw [addrsOf_append]
        refine List.Nodup.append (hall b0 (List.mem_cons_self b0 bs)) ?_ ?_
        · simp [addrsOf]
        · have hsing : addrsOf [(pn, a)] = [a.address] := rfl
          rw [hsing, List.disjoint_singleton]
          exact hmem
      · exact hall b (List.mem_cons_of_mem b0 hb2)

/-- `insertReq` never creates an empty batch. -/
theorem insertReq_ne_nil (pn : Nat) (a : MCP342x) :
    ∀ bs : Batches, (∀ b ∈ bs, b ≠ []) →
      ∀ b ∈ insertReq pn a bs, b ≠ [] := by
  intro bs
  induction bs with
  | nil =>
    intro _ b hb
    simp only [insertReq, List.mem_cons, List.not_mem_nil, or_false] at hb
    subst hb
    simp
  | cons b0 bs ih =>
    intro hall b hb
    by_cases hmem : a.address ∈ addrsOf b0
    · rw [insertReq, if_pos hmem] at hb
      rcases List.mem_cons.mp hb with rfl | hb2
      · exact hall b (List.mem_cons_self b bs)
      · exact ih (fun x hx => hall x (List.mem_cons_of_mem b0 hx)) b hb2
    · rw [insertReq, if_neg hmem] at hb
      rcases List.mem_cons.mp hb with rfl | hb2
      · simp
      · exact hall b (List.mem_cons_of_mem b0 hb2)

/-- Every pair in the output of `insertReq` is an old pair or the new one. -/
theorem insertReq_pairs_subset (pn : Nat) (a : MCP342x) :
    ∀ bs : Batches, ∀ b2 ∈ insertReq pn a bs, ∀ pr ∈ b2,
      (∃ b ∈ bs, pr ∈ b) ∨ pr = (pn, a) := by
  intro bs
  induction bs with
  | nil =>
    intro b2 hb2 pr hpr
    simp only [insertReq, List.mem_cons, List.not_mem_nil, or_false] at hb2
    subst hb2
    simp only [List.mem_cons, List.not_mem_nil, or_false] at hpr
    exact Or.inr hpr
  | cons b0 bs ih =>
    intro b2 hb2 pr hpr
    by_cases hmem : a.address ∈ addrsOf b0
    · rw [insertReq, if_pos hmem] at hb2
      rcases List.mem_cons.mp hb2 with rfl | hrest
      · exact Or.inl ⟨b2, List.mem_cons_self b2 bs, hpr⟩
      · rcases ih b2 hrest pr hpr with ⟨b, hb, hprb⟩ | hnew
        · exact Or.inl ⟨b, List.mem_cons_of_mem b0 hb, hprb⟩
        · exact Or.inr hnew
    · rw [insertReq, if_neg hmem] at hb2
      rcases List.mem_cons.mp hb2 with rfl | hrest
      · rcases List.mem_append.mp hpr with hold | hsing
        · exact Or.inl ⟨b0, List.mem_cons_self b0 bs, hold⟩
        · simp only [List.mem_cons, List.not_mem_nil, or_false] at hsing
          exact Or.inr hsing
      · exact Or.inl ⟨b2, List.mem_cons_of_mem b0 hrest, hpr⟩

/-- Every old pair survives `insertReq`. -/
theorem insertReq_pairs_old (pn : Nat) (a : MCP342x) :
    ∀ bs : Batches, ∀ b ∈ bs, ∀ pr ∈ b,
      ∃ b2 ∈ insertReq pn a bs, pr ∈ b2 := by
  intro bs
  induction bs with
  | nil => intro b hb; exact absurd hb (List.not_mem_nil b)
  | cons b0 bs ih =>
    intro b hb pr hpr
    by_cases hmem : a.address ∈ addrsOf b0
    · rw [insertReq, if_pos hmem]
      rcases List.mem_cons.mp hb with rfl | hrest
      · exact ⟨b, List.mem_cons_self b _, hpr⟩
      · obtain ⟨b2, hb2, hprb2⟩ := ih b hrest pr hpr
        exact ⟨b2, List.mem_cons_of_mem b0 hb2, hprb2⟩
    · rw [insertReq, if_neg hmem]
      rcases List.mem_cons.mp hb with rfl | hrest
      · exact ⟨b ++ [(pn, a)], List.mem_cons_self _ _, List.mem_append_left _ hpr⟩
      · exact ⟨b, List.mem_cons_of_mem _ hrest, hpr⟩

/-- The new pair is placed somewhere by `insertReq`. -/
theorem insertReq_pairs_new (pn : Nat) (a : MCP342x) :
    ∀ bs : Batches, ∃ b2 ∈ insertReq pn a bs, (pn, a) ∈ b2 := by
  intro bs
  induction bs with
  | nil => exact ⟨[(pn, a)], List.mem_cons_self _ _, List.mem_cons_self _ _⟩
  | cons b0 bs ih =>
    by_cases hmem : a.address ∈ addrsOf b0
    · rw [insertReq, if_pos hmem]
      obtain ⟨b2, hb2, hprb2⟩ := ih
      exact ⟨b2, List.mem_cons_of_mem b0 hb2, hprb2⟩
    · rw [insertReq, if_neg hmem]
      exact ⟨b0 ++ [(pn, a)], List.mem_cons_self _ _,
        List.mem_append_right _ (List.mem_cons_self _ _)⟩

/-- The occupancy characterisation of first-fit: if, before insertion,
address `x` occupies exactly the first `c x` batches, then after inserting
a request with address `a.address` it occupies exactly the first `c x`
batches still, except `a.address` which occupies one more. -/
theorem insertReq_char (pn : Nat) (a : MCP342x) :
    ∀ (bs : Batches) (c : Nat → Nat),
      (∀ n x, x ∈ addrsOf (batchAt bs n) ↔ n < c x) →
      ∀ n x, x ∈ addrsOf (batchAt (insertReq pn a bs) n) ↔
        n < (if x = a.address then c x + 1 else c x) := by
  intro bs
  induction bs with
  | nil =>
    intro c hchar n x
    have hc0 : ∀ y, c y = 0 := by
      intro y
      by_contra hy
      have h1 : 0 < c y := Nat.pos_of_ne_zero hy
      have h2 := (hchar 0 y).mpr h1
      simp [batchAt_nil, addrsOf] at h2
    show x ∈ addrsOf (batchAt [[(pn, a)]] n) ↔ _
    have h2 := hc0 x
    have h3 := hc0 a.address
    cases n with
    | zero =>
      rw [batchAt_cons_zero]
      by_cases hx : x = a.address <;> (simp [addrsOf, hx]; try omega)
    | succ n =>
      rw [batchAt_cons_succ, batchAt_nil]
      by_cases hx : x = a.address <;> (simp [addrsOf, hx]; try omega)
  | cons b bs ih =>
    intro c hchar n x
    by_cases hmem : a.address ∈ addrsOf b
    · rw [insertReq, if_pos hmem]
      have h0 : 0 < c a.address := by
        have h := hchar 0 a.address
        rw [batchAt_cons_zero] at h
        exact h.mp hmem
      have hcharT : ∀ n x, x ∈ addrsOf (batchAt bs n) ↔ n < c x - 1 := by
        intro n x
        rw [← batchAt_cons_succ b, hchar (n + 1) x]
        omega
      cases n with
      | zero =>
        rw [batchAt_cons_zero]
        have hl := hchar 0 x
        rw [batchAt_cons_zero] at hl
        by_cases hx : x = a.address
        · subst hx
          simp only [eq_self_iff_true, if_true]
          exact ⟨fun _ => by omega, fun _ => hmem⟩
        · simp only [if_neg hx]
          exact hl
      | succ n =>
        have hins := ih (fun x => c x - 1) hcharT n x
        rw [batchAt_cons_succ, hins]
        by_cases hx : x = a.address
        · simp only [hx, eq_self_iff_true, if_true]
          omega
        · simp only [if_neg hx]
          omega
    · rw [insertReq, if_neg hmem]
      have hc0 : c a.address = 0 := by
        by_contra hy
        have h := hchar 0 a.address
        rw [batchAt_cons_zero] at h
        exact hmem (h.mpr (by omega))
      cases n with
      | zero =>
        rw [batchAt_cons_zero, addrsOf_append]
        have hl := hchar 0 x
        rw [batchAt_cons_zero] at hl
        by_cases hx : x = a.address
        · subst hx
          simp only [eq_self_iff_true, if_true, List.mem_append]
          exact ⟨fun _ => by omega, fun _ => Or.inr (by simp [addrsOf])⟩
        · simp only [if_neg hx, List.mem_append]
          rw [hl]
          simp only [addrsOf, List.map_cons, List.map_nil, List.mem_cons,
            List.not_mem_nil, or_false]
          constructor
          · rintro (h | h)
            · exact h
            · exact absurd h hx
          · exact Or.inl
      | succ n =>
        rw [batchAt_cons_succ]
        have hl := hchar (n + 1) x
        rw [batchAt_cons_succ] at hl
        rw [hl]
        by_cases hx : x = a.address
        · subst hx
          simp only [eq_self_iff_true, if_true]
          omega
        · simp [hx]

/-- Appending one request to the processed list changes exactly one count. -/
theorem cntAddr_append (P : List MCP342x) (r : MCP342x) (β x : Nat) :
    cntAddr (P ++ [r]) β x =
      cntAddr P β x + (if r.bus = β ∧ r.address = x then 1 else 0) := by
  by_cases hb : r.bus = β ∧ r.address = x
  · rw [if_pos hb]
    simp [cntAddr, List.filter_append, List.filter_cons, hb.1, hb.2]
  · rw [if_neg hb]
    have hfalse : (r.bus == β && r.address == x) = false := by
      rw [not_and_or] at hb
      rcases hb with h | h <;> simp [h]
    simp [cntAddr, List.filter_append, List.filter_cons, hfalse]

/-- A request for an unseen bus is appended as a fresh singleton entry. -/
theorem insertBus_not_mem (pn : Nat) (r : MCP342x) :
    ∀ g : Grouping, r.bus ∉ g.map Prod.fst →
      insertBus pn r g = g ++ [(r.bus, [[(pn, r)]])] := by
  intro g
  induction g with
  | nil => intro _; rfl
  | cons e g ih =>
    intro hmem
    obtain ⟨e1, e2⟩ := e
    simp only [List.map_cons, List.mem_cons, not_or] at hmem
    show (if e1 = r.bus then (e1, insertReq pn r e2) :: g
      else (e1, e2) :: insertBus pn r g) = _
    rw [if_neg (fun h => hmem.1 h.symm), ih hmem.2]
    rfl

/-- A request for a seen bus updates exactly that bus's entry in place. -/
theorem insertBus_mem (pn : Nat) (r : MCP342x) :
    ∀ g : Grouping, (g.map Prod.fst).Nodup → r.bus ∈ g.map Prod.fst →
      ∃ g1 bs g2, g = g1 ++ (r.bus, bs) :: g2 ∧
        r.bus ∉ g1.map Prod.fst ∧ r.bus ∉ g2.map Prod.fst ∧
        insertBus pn r g = g1 ++ (r.bus, insertReq pn r bs) :: g2 := by
  intro g
  induction g with
  | nil => intro _ h; simp at h
  | cons e g ih =>
    intro hnd hmem
    obtain ⟨e1, e2⟩ := e
    by_cases he : e1 = r.bus
    · subst he
      have hnotg : r.bus ∉ g.map Prod.fst := by
        have h2 : (r.bus :: g.map Prod.fst).Nodup := by simpa using hnd
        exact (List.nodup_cons.mp h2).1
      refine ⟨[], e2, g, by simp, by simp, hnotg, ?_⟩
      show (if r.bus = r.bus then (r.bus, insertReq pn r e2) :: g
        else (r.bus, e2) :: insertBus pn r g) = _
      rw [if_pos rfl]
      rfl
    · have hmem2 : r.bus ∈ g.map Prod.fst := by
        simp only [List.map_cons, List.mem_cons] at hmem
        rcases hmem with h | h
        · exact absurd h.symm he
        · exact h
      have hnd2 : (g.map Prod.fst).Nodup := by
        have h2 : (e1 :: g.map Prod.fst).Nodup := by simpa using hnd
        exact (List.nodup_cons.mp h2).2
      obtain ⟨g1, bs, g2, hg, hg1, hg2, hins⟩ := ih hnd2 hmem2
      refine ⟨(e1, e2) :: g1, bs, g2, by rw [hg]; rfl, ?_, hg2, ?_⟩
      · simp only [List.map_cons, List.mem_cons, not_or]
        exact ⟨fun h => he h.symm, hg1⟩
      · show (if e1 = r.bus then (e1, insertReq pn r e2) :: g
          else (e1, e2) :: insertBus pn r g) = _
        rw [if_neg he, hins]
        rfl

/-- An entry's key is among the keys. -/
theorem key_mem_keys {β : Nat} {bs : Batches} {g : Grouping}
    (h : (β, bs) ∈ g) : β ∈ g.map Prod.fst :=
  List.mem_map_of_mem Prod.fst h

/-- The invariant the grouping loop of `convert_and_read_many` maintains,
for processed prefix `P`: per bus, address `x` occupies exactly the first
`cntAddr P β x` batches (so batches are duplicate-free and their number is
the maximum multiplicity); every stored (position, request) pair is the
request actually at that position of `P`, and every position of `P` is
stored somewhere. -/
structure SchedInv (P : List MCP342x) (g : Grouping) : Prop where
  keys_nodup : (g.map Prod.fst).Nodup
  absent_zero : ∀ β x, β ∉ g.map Prod.fst → cntAddr P β x = 0
  char : ∀ β bs, (β, bs) ∈ g → ∀ n x,
    x ∈ addrsOf (batchAt bs n) ↔ n < cntAddr P β x
  nodups : ∀ β bs, (β, bs) ∈ g → ∀ b ∈ bs, (addrsOf b).Nodup
  batch_ne : ∀ β bs, (β, bs) ∈ g → ∀ b ∈ bs, b ≠ []
  pos_val : ∀ β bs, (β, bs) ∈ g → ∀ b ∈ bs, ∀ pr ∈ b,
    pr.2.bus = β ∧ P[pr.1]? = some pr.2
  pos_complete : ∀ j < P.length, ∃ β bs b pr,
    (β, bs) ∈ g ∧ b ∈ bs ∧ pr ∈ b ∧ pr.1 = j

/-- Processing one more request preserves the scheduler invariant. -/
theorem SchedInv_step (P : List MCP342x) (g : Grouping) (r : MCP342x)
    (inv : SchedInv P g) : SchedInv (P ++ [r]) (insertBus P.length r g) := by
  have hcnt_other : ∀ β x, β ≠ r.bus →
      cntAddr (P ++ [r]) β x = cntAddr P β x := by
    intro β x hβ
    rw [cntAddr_append, if_neg (fun h => hβ h.1.symm)]
    omega
  by_cases hmem : r.bus ∈ g.map Prod.fst
  · obtain ⟨g1, bs0, g2, hg, hg1, hg2, hins⟩ :=
      insertBus_mem P.length r g inv.keys_nodup hmem
    rw [hins]
    have hentry : (r.bus, bs0) ∈ g := by
      rw [hg]; exact List.mem_append_right _ (List.mem_cons_self _ _)
    have hchar0 := inv.char r.bus bs0 hentry
    have hcnt_rbus : ∀ x, cntAddr (P ++ [r]) r.bus x =
        cntAddr P r.bus x + (if x = r.address then 1 else 0) := by
      intro x
      rw [cntAddr_append]
      by_cases hx : x = r.address
      · rw [if_pos ⟨rfl, hx.symm⟩, if_pos hx]
      · rw [if_neg (fun h => hx h.2.symm), if_neg hx]
    have hne1 : ∀ β bs2, (β, bs2) ∈ g1 → β ≠ r.bus := by
      intro β bs2 hm h
      exact hg1 (h ▸ key_mem_keys hm)
    have hne2 : ∀ β bs2, (β, bs2) ∈ g2 → β ≠ r.bus := by
      intro β bs2 hm h
      exact hg2 (h ▸ key_mem_keys hm)
    have hold : ∀ β bs2, (β, bs2) ∈ g1 ∨ (β, bs2) ∈ g2 → (β, bs2) ∈ g := by
      intro β bs2 hm
      rw [hg]
      rcases hm with hm | hm
      · exact List.mem_append_left _ hm
      · exact List.mem_append_right _ (List.mem_cons_of_mem _ hm)
    have hsplit : ∀ β bs2, (β, bs2) ∈ g1 ++ (r.bus, insertReq P.length r bs0) :: g2 →
        ((β, bs2) ∈ g1 ∨ (β, bs2) ∈ g2) ∨
          (β = r.bus ∧ bs2 = insertReq P.length r bs0) := by
      intro β bs2 hm
      rcases List.mem_append.mp hm with hm | hm
      · exact Or.inl (Or.inl hm)
      · rcases List.mem_cons.mp hm with hm | hm
        · obtain ⟨h1, h2⟩ := Prod.mk.injEq .. ▸ hm
          exact Or.inr ⟨h1, h2⟩
        · exact Or.inl (Or.inr hm)
    have hkeys : (g1 ++ (r.bus, insertReq P.length r bs0) :: g2).map Prod.fst =
        g.map Prod.fst := by
      rw [hg]
      simp
    refine ⟨?_, ?_, ?_, ?_, ?_, ?_, ?_⟩
    · rw [hkeys]; exact inv.keys_nodup
    · intro β x hb
      rw [hkeys] at hb
      have hβ : β ≠ r.bus := fun h => hb (h ▸ hmem)
      rw [hcnt_other β x hβ]
      exact inv.absent_zero β x hb
    · intro β bs2 hm n x
      rcases hsplit β bs2 hm with hmo | ⟨hβ, hbs2⟩
      · have hβ : β ≠ r.bus := by
          rcases hmo with hm1 | hm1
          · exact hne1 β bs2 hm1
          · exact hne2 β bs2 hm1
        rw [hcnt_other β x hβ]
        exact inv.char β bs2 (hold β bs2 hmo) n x
      · subst hβ
        subst hbs2
        rw [insertReq_char P.length r bs0 (cntAddr P r.bus) hchar0 n x,
          hcnt_rbus x]
        by_cases hx : x = r.address <;> simp [hx]
    · intro β bs2 hm b hb
      rcases hsplit β bs2 hm with hmo | ⟨hβ, hbs2⟩
      · exact inv.nodups β bs2 (hold β bs2 hmo) b hb
      · subst hbs2
        exact insertReq_nodup P.length r bs0
          (inv.nodups r.bus bs0 hentry) b hb
    · intro β bs2 hm b hb
      rcases hsplit β bs2 hm with hmo | ⟨hβ, hbs2⟩
      · exact inv.batch_ne β bs2 (hold β bs2 hmo) b hb
      · subst hbs2
        exact insertReq_ne_nil P.length r bs0
          (inv.batch_ne r.bus bs0 hentry) b hb
    · intro β bs2 hm b hb pr hpr
      have hval : pr.2.bus = β ∧ P[pr.1]? = some pr.2 ∨
          (β = r.bus ∧ pr = (P.length, r)) := by
        rcases hsplit β bs2 hm with hmo | ⟨hβ, hbs2⟩
        · exact Or.inl (inv.pos_val β bs2 (hold β bs2 hmo) b hb pr hpr)
        · subst hbs2
          rcases insertReq_pairs_subset P.length r bs0 b hb pr hpr with
            ⟨b0, hb0, hprb0⟩ | hnew
          · exact Or.inl (inv.pos_val r.bus bs0 hentry b0 hb0 pr hprb0 |>.imp
              (fun h => hβ ▸ h) id)
          · exact Or.inr ⟨hβ, hnew⟩
      rcases hval with ⟨h1, h2⟩ | ⟨hβ, hpr2⟩
      · refine ⟨h1, ?_⟩
        obtain ⟨hlt, -⟩ := List.getElem?_eq_some.mp h2
        rw [List.getElem?_append, if_pos hlt]
        exact h2
      · subst hpr2
        exact ⟨hβ.symm, List.getElem?_concat_length P r⟩
    · intro j hj
      rw [List.length_append, List.length_singleton] at hj
      by_cases hjP : j < P.length
      · obtain ⟨β, bs2, b, pr, hmεntry, hb, hpr, hprj⟩ := inv.pos_complete j hjP
        rw [hg] at hmεntry
        rcases List.mem_append.mp hmεntry with hm1 | hm1
        · exact ⟨β, bs2, b, pr, List.mem_append_left _ hm1, hb, hpr, hprj⟩
        · rcases List.mem_cons.mp hm1 with hm2 | hm2
          · have hbs2 : bs2 = bs0 := congrArg Prod.snd hm2
            rw [hbs2] at hb
            obtain ⟨b2, hb2, hprb2⟩ := insertReq_pairs_old P.length r bs0 b hb pr hpr
            exact ⟨r.bus, insertReq P.length r bs0, b2, pr,
              List.mem_append_right _ (List.mem_cons_self _ _), hb2, hprb2, hprj⟩
          · exact ⟨β, bs2, b, pr,
              List.mem_append_right _ (List.mem_cons_of_mem _ hm2), hb, hpr, hprj⟩
      · have hjeq : j = P.length := by omega
        obtain ⟨b2, hb2, hprb2⟩ := insertReq_pairs_new P.length r bs0
        exact ⟨r.bus, insertReq P.length r bs0, b2, (P.length, r),
          List.mem_append_right _ (List.mem_cons_self _ _), hb2, hprb2, hjeq.symm⟩
  · rw [insertBus_not_mem P.length r g hmem]
    have hsplit : ∀ β bs2, (β, bs2) ∈ g ++ [(r.bus, [[(P.length, r)]])] →
        (β, bs2) ∈ g ∨ (β = r.bus ∧ bs2 = [[(P.length, r)]]) := by
      intro β bs2 hm
      rcases List.mem_append.mp hm with hm | hm
      · exact Or.inl hm
      · obtain ⟨h1, h2⟩ := Prod.mk.injEq .. ▸ List.mem_singleton.mp hm
        exact Or.inr ⟨h1, h2⟩
    have hβg : ∀ β bs2, (β, bs2) ∈ g → β ≠ r.bus := by
      intro β bs2 hm h
      exact hmem (h ▸ key_mem_keys hm)
    have hcnt0 : ∀ x, cntAddr P r.bus x = 0 := fun x =>
      inv.absent_zero r.bus x hmem
    have hcnt_new : ∀ x, cntAddr (P ++ [r]) r.bus x =
        (if x = r.address then 1 else 0) := by
      intro x
      rw [cntAddr_append, hcnt0 x]
      by_cases hx : x = r.address
      · rw [if_pos ⟨rfl, hx.symm⟩, if_pos hx]
      · rw [if_neg (fun h => hx h.2.symm), if_neg hx]
    refine ⟨?_, ?_, ?_, ?_, ?_, ?_, ?_⟩
    · rw [List.map_append]
      refine List.Nodup.append inv.keys_nodup (by simp) ?_
      show (g.map Prod.fst).Disjoint [r.bus]
      rw [List.disjoint_singleton]
      exact hmem
    · intro β x hb
      rw [List.map_append] at hb
      simp only [List.mem_append, not_or, List.map_cons, List.map_nil,
        List.mem_cons, List.not_mem_nil, or_false] at hb
      rw [hcnt_other β x hb.2]
      exact inv.absent_zero β x hb.1
    · intro β bs2 hm n x
      rcases hsplit β bs2 hm with hm | ⟨hβ, hbs2⟩
      · rw [hcnt_other β x (hβg β bs2 hm)]
        exact inv.char β bs2 hm n x
      · subst hβ
        subst hbs2
        rw [hcnt_new x]
        cases n with
        | zero =>
          rw [batchAt_cons_zero]
          by_cases hx : x = r.address <;> simp [addrsOf, hx]
        | succ n =>
          rw [batchAt_cons_succ, batchAt_nil]
          by_cases hx : x = r.address <;> simp [addrsOf, hx]
    · intro β bs2 hm b hb
      rcases hsplit β bs2 hm with hm | ⟨hβ, hbs2⟩
      · exact inv.nodups β bs2 hm b hb
      · subst hbs2
        simp only [List.mem_cons, List.not_mem_nil, or_false] at hb
        subst hb
        simp [addrsOf]
    · intro β bs2 hm b hb
      rcases hsplit β bs2 hm with hm | ⟨hβ, hbs2⟩
      · exact inv.batch_ne β bs2 hm b hb
      · subst hbs2
        simp only [List.mem_cons, List.not_mem_nil, or_false] at hb
        subst hb
        simp
    · intro β bs2 hm b hb pr hpr
      rcases hsplit β bs2 hm with hm | ⟨hβ, hbs2⟩
      · obtain ⟨h1, h2⟩ := inv.pos_val β bs2 hm b hb pr hpr
        refine ⟨h1, ?_⟩
        obtain ⟨hlt, -⟩ := List.getElem?_eq_some.mp h2
        rw [List.getElem?_append, if_pos hlt]
        exact h2
      · subst hbs2
        simp only [List.mem_cons, List.not_mem_nil, or_false] at hb
        subst hb
        simp only [List.mem_cons, List.not_mem_nil, or_false] at hpr
        subst hpr
        exact ⟨hβ.symm, List.getElem?_concat_length P r⟩
    · intro j hj
      rw [List.length_append, List.length_singleton] at hj
      by_cases hjP : j < P.length
      · obtain ⟨β, bs2, b, pr, hmentry, hb, hpr, hprj⟩ := inv.pos_complete j hjP
        exact ⟨β, bs2, b, pr, List.mem_append_left _ hmentry, hb, hpr, hprj⟩
      · have hjeq : j = P.length := by omega
        exact ⟨r.bus, [[(P.length, r)]], [(P.length, r)], (P.length, r),
          List.mem_append_right _ (List.mem_singleton.mpr rfl),
          List.mem_cons_self _ _, List.mem_cons_self _ _, hjeq.symm⟩

/-- The grouping loop preserves the invariant along any request list. -/
theorem SchedInv_groupAux :
    ∀ (rest P : List MCP342x) (g : Grouping), SchedInv P g →
      SchedInv (P ++ rest) (groupAux P.length rest g) := by
  intro rest
  induction rest with
  | nil => intro P g inv; simpa using inv
  | cons r rest ih =>
    intro P g inv
    have h2 := ih (P ++ [r]) (insertBus P.length r g) (SchedInv_step P g r inv)
    rw [List.length_append, List.length_singleton] at h2
    show SchedInv (P ++ r :: rest)
      (groupAux (P.length + 1) rest (insertBus P.length r g))
    rw [show P ++ r :: rest = (P ++ [r]) ++ rest by simp]
    exact h2

/-- The empty state satisfies the invariant. -/
theorem SchedInv_nil : SchedInv [] [] := by
  refine ⟨by simp, fun β x _ => rfl, ?_, ?_, ?_, ?_, ?_⟩ <;>
    first
      | (intro β bs h; exact absurd h (List.not_mem_nil _))
      | (intro j hj; simp at hj)

/-- The grouping pass satisfies the invariant for the whole request list. -/
theorem groupReqs_inv (adcs : List MCP342x) : SchedInv adcs (groupReqs adcs) := by
  have h := SchedInv_groupAux adcs [] [] SchedInv_nil
  simpa using h

theorem foldr_max_le (l : List Nat) (m : Nat) (h : ∀ x ∈ l, x ≤ m) :
    l.foldr max 0 ≤ m := by
  induction l with
  | nil => simp
  | cons a l ih =>
    simp only [List.foldr_cons]
    exact max_le (h a (List.mem_cons_self a l))
      (ih fun x hx => h x (List.mem_cons_of_mem a hx))

theorem le_foldr_max (l : List Nat) (x : Nat) (h : x ∈ l) :
    x ≤ l.foldr max 0 := by
  induction l with
  | nil => exact absurd h (List.not_mem_nil x)
  | cons a l ih =>
    simp only [List.foldr_cons]
    rcases List.mem_cons.mp h with rfl | h2
    · exact le_max_left _ _
    · exact le_trans (ih h2) (le_max_right _ _)

/-- `cntAddr` counts occurrences of the address among the bus's requests. -/
theorem cntAddr_eq_count (β a : Nat) :
    ∀ adcs : List MCP342x, cntAddr adcs β a =
      ((adcs.filter (fun q => q.bus == β)).map (fun q => q.address)).count a := by
  intro adcs
  induction adcs with
  | nil => rfl
  | cons q adcs ih =>
    by_cases hb : q.bus = β
    · by_cases ha : q.address = a
      · simp only [cntAddr, List.filter_cons, hb, ha, beq_self_eq_true,
          Bool.and_self, if_true, List.length_cons, List.map_cons,
          List.count_cons, beq_iff_eq]
        simp only [cntAddr] at ih
        simp [ih, List.filter_cons, hb]
      · have hpred : (q.bus == β && q.address == a) = false := by simp [ha]
        simp only [cntAddr, List.filter_cons, hpred, Bool.false_eq_true,
          if_false, List.map_cons]
        have hcount : ((q.address :: (adcs.filter
            (fun q2 => q2.bus == β)).map (fun q2 => q2.address)).count a) =
            ((adcs.filter (fun q2 => q2.bus == β)).map
              (fun q2 => q2.address)).count a := by
          rw [List.count_cons]
          simp [ha]
        simp only [cntAddr] at ih
        simp [List.filter_cons, hb, hcount, ih]
    · have hpred : (q.bus == β && q.address == a) = false := by simp [hb]
      have hpred2 : (q.bus == β) = false := by simp [hb]
      simp only [cntAddr, List.filter_cons, hpred, Bool.false_eq_true,
        if_false, hpred2]
      simp only [cntAddr] at ih
      exact ih

/-- In a family of duplicate-free batches, any address appears at most once
per batch, so at most `length` times in total. -/
theorem count_flatten_le (a : Nat) :
    ∀ Q : List (List Nat), (∀ b ∈ Q, b.Nodup) →
      Q.flatten.count a ≤ Q.length := by
  intro Q
  induction Q with
  | nil => intro _; simp
  | cons b Q ih =>
    intro h
    rw [List.flatten_cons, List.count_append]
    have h1 : b.count a ≤ 1 :=
      List.nodup_iff_count_le_one.mp (h b (List.mem_cons_self b Q)) a
    have h2 := ih (fun x hx => h x (List.mem_cons_of_mem b hx))
    simp only [List.length_cons]
    omega

/-- Claim C1: the greedy first-fit grouping gives, per bus, batches with
pairwise-distinct device addresses, and the number of batches equals the
maximum number of requests sharing a single address on that bus — which is
also a lower bound for any duplicate-free partition of that bus's requests,
i.e. the minimum possible number of rounds. -/
theorem claim_c1 (adcs : List MCP342x) (β : Nat) (bs : Batches)
    (hmem : (β, bs) ∈ groupReqs adcs) :
    (∀ b ∈ bs, (addrsOf b).Nodup) ∧
    bs.length = maxMult adcs β ∧
    (∀ Q : List (List Nat),
      Q.flatten.Perm ((adcs.filter (fun q => q.bus == β)).map
        (fun q => q.address)) →
      (∀ b ∈ Q, b.Nodup) → maxMult adcs β ≤ Q.length) := by
  have inv := groupReqs_inv adcs
  have hchar := inv.char β bs hmem
  have hcnt_le : ∀ x, cntAddr adcs β x ≤ bs.length := by
    intro x
    by_contra hx
    have hlt : bs.length < cntAddr adcs β x := by omega
    have hmem2 := (hchar bs.length x).mpr hlt
    have hnone : batchAt bs bs.length = [] := by
      simp [batchAt, List.getElem?_eq_none (le_refl bs.length)]
    rw [hnone] at hmem2
    simp [addrsOf] at hmem2
  refine ⟨inv.nodups β bs hmem, ?_, ?_⟩
  · apply le_antisymm
    · cases hlen : bs.length with
      | zero => exact Nat.zero_le _
      | succ n =>
        have hn : n < bs.length := by omega
        cases hsome : bs[n]? with
        | none =>
          have := List.getElem?_eq_none_iff.mp hsome
          omega
        | some b =>
          have hmemb : b ∈ bs := List.getElem?_mem hsome
          have hbAt : batchAt bs n = b := by simp [batchAt, hsome]
          obtain ⟨pr, hpr⟩ := List.exists_mem_of_ne_nil b
            (inv.batch_ne β bs hmem b hmemb)
          have hxmem : pr.2.address ∈ addrsOf b :=
            List.mem_map_of_mem (fun pr2 => pr2.2.address) hpr
          have hcnt_ge : n < cntAddr adcs β pr.2.address :=
            (hchar n pr.2.address).mp (hbAt ▸ hxmem)
          have hcv := inv.pos_val β bs hmem b hmemb pr hpr
          have hq : pr.2 ∈ adcs := List.getElem?_mem hcv.2
          have hqf : pr.2 ∈ adcs.filter (fun q => q.bus == β) :=
            List.mem_filter.mpr ⟨hq, by simp [hcv.1]⟩
          have hinmap : cntAddr adcs β pr.2.address ∈
              (adcs.filter (fun q => q.bus == β)).map
                (fun q => cntAddr adcs β q.address) :=
            List.mem_map_of_mem (fun q => cntAddr adcs β q.address) hqf
          have hle := le_foldr_max _ _ hinmap
          have hle2 := hcnt_le pr.2.address
          unfold maxMult
          omega
    · apply foldr_max_le
      intro y hy
      obtain ⟨q, hq, rfl⟩ := List.mem_map.mp hy
      exact hcnt_le q.address
  · intro Q hperm hnd
    apply foldr_max_le
    intro y hy
    obtain ⟨q, hq, rfl⟩ := List.mem_map.mp hy
    rw [cntAddr_eq_count, ← hperm.count_eq]
    exact count_flatten_le q.address Q hnd

/-- Device A (address 0x68) on bus 1, channel 0. -/
def exA0 : MCP342x :=
  { bus := 1, address := 104, device := "MCP3424", config := 0,
    scale_factor := 1, offset := 0 }

/-- Device A again, requested for channel 1 (config `0b0100000`). -/
def exA1 : MCP342x := { exA0 with config := 32 }

/-- A different device B (address 0x69) on the same bus. -/
def exB0 : MCP342x := { exA0 with address := 105 }

/-- Claim C1 witness: two channels of device A plus one channel of device B
on one bus group into exactly 2 duplicate-free batches (= the maximum
address multiplicity), while one request per device yields exactly 1. -/
theorem claim_c1_witness :
    (1, [[(0, exA0), (2, exB0)], [(1, exA1)]]) ∈ groupReqs [exA0, exA1, exB0] ∧
    (addrsOf [(0, exA0), (2, exB0)]).Nodup ∧
    (addrsOf [(1, exA1)]).Nodup ∧
    ([[(0, exA0), (2, exB0)], [(1, exA1)]] : Batches).length =
      maxMult [exA0, exA1, exB0] 1 ∧
    maxMult [exA0, exA1, exB0] 1 = 2 ∧
    (1, [[(0, exA0), (1, exB0)]]) ∈ groupReqs [exA0, exB0] ∧
    ([[(0, exA0), (1, exB0)]] : Batches).length = maxMult [exA0, exB0] 1 ∧
    maxMult [exA0, exB0] 1 = 1 := by
  have hm1 : (1, [[(0, exA0), (2, exB0)], [(1, exA1)]]) ∈
      groupReqs [exA0, exA1, exB0] := by
    rw [show groupReqs [exA0, exA1, exB0] =
      [(1, [[(0, exA0), (2, exB0)], [(1, exA1)]])] from rfl]
    exact List.mem_singleton.mpr rfl
  have hm2 : (1, [[(0, exA0), (1, exB0)]]) ∈ groupReqs [exA0, exB0] := by
    rw [show groupReqs [exA0, exB0] = [(1, [[(0, exA0), (1, exB0)]])] from rfl]
    exact List.mem_singleton.mpr rfl
  have h1 := claim_c1 [exA0, exA1, exB0] 1 _ hm1
  have h2 := claim_c1 [exA0, exB0] 1 _ hm2
  exact ⟨hm1,
    h1.1 _ (List.mem_cons_self _ _),
    h1.1 _ (List.mem_cons_of_mem _ (List.mem_cons_self _ _)),
    h1.2.1, rfl, hm2, h2.2.1, rfl⟩

/-- One result write: `results[pn] = readVal(a)`. -/
def writeVal (f : MCP342x → Int) (res : List Int) (pr : Nat × MCP342x) :
    List Int :=
  res.set pr.1 (f pr.2)

/-- All (position, request) pairs in the order the read phase visits them:
rounds outermost, then buses, then the entries of each batch. -/
def flatPairs (g : Grouping) : List (Nat × MCP342x) :=
  ((List.range (numBatches g)).map
    (fun bn => (g.map (fun e => batchAt e.2 bn)).flatten)).flatten

theorem readBatch_eq (f : MCP342x → Int) (res : List Int)
    (b : List (Nat × MCP342x)) :
    readBatch f res b = b.foldl (writeVal f) res := rfl

theorem readRound_eq (f : MCP342x → Int) (g : Grouping) (bn : Nat)
    (res : List Int) :
    readRound f g bn res =
      ((g.map (fun e => batchAt e.2 bn)).flatten).foldl (writeVal f) res := by
  show g.foldl (fun res e => readBatch f res (batchAt e.2 bn)) res = _
  simp only [readBatch_eq]
  rw [List.foldl_flatten, List.foldl_map]

/-- The whole read phase is one left fold of single writes over
`flatPairs`. -/
theorem cam_eq (f : MCP342x → Int) (adcs : List MCP342x) :
    convert_and_read_many f adcs =
      (flatPairs (groupReqs adcs)).foldl (writeVal f)
        (List.replicate adcs.length 0) := by
  show (List.range (numBatches (groupReqs adcs))).foldl
      (fun res bn => readRound f (groupReqs adcs) bn res)
      (List.replicate adcs.length 0) = _
  simp only [readRound_eq]
  rw [flatPairs, List.foldl_flatten, List.foldl_map]

/-- Folding single-index writes: position `j` ends up holding `f adcs[j]`
when some write targets it, and the initial value otherwise (every write
carries the request actually stored at its position, so multiple writes to
one position all write the same value). -/
theorem setFold_get (f : MCP342x → Int) (adcs : List MCP342x) :
    ∀ (W : List (Nat × MCP342x)) (res : List Int),
      res.length = adcs.length →
      (∀ pr ∈ W, adcs[pr.1]? = some pr.2) →
      ∀ j, (W.foldl (writeVal f) res)[j]? =
        if ∃ pr ∈ W, pr.1 = j then (adcs[j]?).map f else res[j]? := by
  intro W
  induction W with
  | nil =>
    intro res hlen hval j
    simp
  | cons pr W ih =>
    intro res hlen hval j
    have hprval : adcs[pr.1]? = some pr.2 := hval pr (List.mem_cons_self pr W)
    obtain ⟨hprlt, -⟩ := List.getElem?_eq_some.mp hprval
    have hlen2 : (writeVal f res pr).length = adcs.length := by
      simp [writeVal, hlen]
    have hval2 : ∀ q ∈ W, adcs[q.1]? = some q.2 :=
      fun q hq => hval q (List.mem_cons_of_mem pr hq)
    rw [List.foldl_cons, ih (writeVal f res pr) hlen2 hval2 j]
    by_cases hW : ∃ q ∈ W, q.1 = j
    · rw [if_pos hW, if_pos ?_]
      obtain ⟨q, hq, hqj⟩ := hW
      exact ⟨q, List.mem_cons_of_mem pr hq, hqj⟩
    · rw [if_neg hW]
      by_cases hj : pr.1 = j
      · rw [if_pos ⟨pr, List.mem_cons_self pr W, hj⟩]
        show (res.set pr.1 (f pr.2))[j]? = _
        rw [List.getElem?_set, if_pos hj, if_pos (by omega)]
        rw [← hj, hprval]
        rfl
      · rw [if_neg ?_]
        · show (res.set pr.1 (f pr.2))[j]? = res[j]?
          rw [List.getElem?_set, if_neg hj]
        · rintro ⟨q, hq, hqj⟩
          rcases List.mem_cons.mp hq with rfl | hq2
          · exact hj hqj
          · exact hW ⟨q, hq2, hqj⟩

/-- A bus entry never has more batches than `num_batches`. -/
theorem numBatches_ge {g : Grouping} {β : Nat} {bs : Batches}
    (h : (β, bs) ∈ g) : bs.length ≤ numBatches g :=
  le_foldr_max _ _ (List.mem_map_of_mem (fun e => e.2.length) h)

/-- Every stored pair is visited by the read phase. -/
theorem flatPairs_mem_of (g : Grouping) (β : Nat) (bs : Batches)
    (b : List (Nat × MCP342x)) (pr : Nat × MCP342x)
    (hg : (β, bs) ∈ g) (hb : b ∈ bs) (hpr : pr ∈ b) : pr ∈ flatPairs g := by
  obtain ⟨n, hn⟩ := List.mem_iff_getElem?.mp hb
  obtain ⟨hnlt, -⟩ := List.getElem?_eq_some.mp hn
  have hnum : n < numBatches g := lt_of_lt_of_le hnlt (numBatches_ge hg)
  apply List.mem_flatten.mpr
  refine ⟨(g.map (fun e => batchAt e.2 n)).flatten,
    List.mem_map_of_mem _ (List.mem_range.mpr hnum), ?_⟩
  apply List.mem_flatten.mpr
  refine ⟨batchAt bs n, List.mem_map_of_mem (fun e => batchAt e.2 n) hg, ?_⟩
  rw [show batchAt bs n = b by simp [batchAt, hn]]
  exact hpr

/-- Every pair the read phase visits is a stored pair. -/
theorem flatPairs_sound (g : Grouping) (pr : Nat × MCP342x)
    (h : pr ∈ flatPairs g) :
    ∃ β bs b, (β, bs) ∈ g ∧ b ∈ bs ∧ pr ∈ b := by
  obtain ⟨l, hl, hprl⟩ := List.mem_flatten.mp h
  obtain ⟨bn, hbn, rfl⟩ := List.mem_map.mp hl
  obtain ⟨b2, hb2, hprb2⟩ := List.mem_flatten.mp hprl
  obtain ⟨e, he, rfl⟩ := List.mem_map.mp hb2
  cases hsome : e.2[bn]? with
  | none =>
    rw [show batchAt e.2 bn = [] by simp [batchAt, hsome]] at hprb2
    exact absurd hprb2 (List.not_mem_nil pr)
  | some b =>
    refine ⟨e.1, e.2, b, he, List.getElem?_mem hsome, ?_⟩
    rw [show batchAt e.2 bn = b by simp [batchAt, hsome]] at hprb2
    exact hprb2

/-- Claim C5: `convert_and_read_many` returns one result per request, in
the original request order: the result list is exactly the request list
mapped through the per-request read. -/
theorem claim_c5 (f : MCP342x → Int) (adcs : List MCP342x) :
    convert_and_read_many f adcs = adcs.map f := by
  have inv := groupReqs_inv adcs
  have hvalid : ∀ pr ∈ flatPairs (groupReqs adcs), adcs[pr.1]? = some pr.2 := by
    intro pr hpr
    obtain ⟨β, bs, b, hg, hb, hprb⟩ := flatPairs_sound _ pr hpr
    exact (inv.pos_val β bs hg b hb pr hprb).2
  apply List.ext_getElem?
  intro j
  rw [cam_eq, setFold_get f adcs _ _ (by simp) hvalid j]
  by_cases hj : j < adcs.length
  · have hex : ∃ pr ∈ flatPairs (groupReqs adcs), pr.1 = j := by
      obtain ⟨β, bs, b, pr, hg, hb, hprb, hpj⟩ := inv.pos_complete j hj
      exact ⟨pr, flatPairs_mem_of _ β bs b pr hg hb hprb, hpj⟩
    rw [if_pos hex, List.getElem?_map]
  · have hnex : ¬ ∃ pr ∈ flatPairs (groupReqs adcs), pr.1 = j := by
      rintro ⟨pr, hpr, rfl⟩
      obtain ⟨hlt, -⟩ := List.getElem?_eq_some.mp (hvalid pr hpr)
      omega
    rw [if_neg hnex, List.getElem?_eq_none (by simp; omega),
      List.getElem?_eq_none (by simp; omega)]

end MCP342xSpec
